import Mathlib

/-!
Verification of the diagnosis-narrative parser `rr` from `src/index.py`
(Intelehealth middleware).  The parser and every string primitive it uses
are embedded over `List Char`, with Python exception flow modelled by
`Except Unit` and the whole-function `try/except` by a total wrapper that
returns `[]` on error.
-/

namespace IH

/-- Strings are modelled as lists of characters; Python string indices are
character positions. -/
abbrev Str := List Char

/-- Python whitespace test (`str.isspace` / default `strip`), restricted to
the ASCII whitespace characters. -/
def pyIsSpace (c : Char) : Bool :=
  c = ' ' || c = '\t' || c = '\n' || c = '\r' || c = '\x0b' || c = '\x0c'

/-- Remove leading whitespace (the left half of Python `str.strip`). -/
def stripStart (l : Str) : Str := l.dropWhile pyIsSpace

/-- Remove trailing whitespace (the right half of Python `str.strip`). -/
def stripEnd (l : Str) : Str := ((l.reverse).dropWhile pyIsSpace).reverse

/-- Python `str.strip()`: remove leading and trailing whitespace. -/
def strip (l : Str) : Str := stripEnd (stripStart l)

/-- Python `str.rstrip(")")`: remove all trailing `')'` characters. -/
def rstripParen (l : Str) : Str := ((l.reverse).dropWhile (fun c => c = ')')).reverse

/-- `sub` occurs in `l` at position `i`. -/
def occursAt (sub l : Str) (i : Nat) : Prop := (l.drop i).take sub.length = sub

instance (sub l : Str) (i : Nat) : Decidable (occursAt sub l i) := by
  unfold occursAt; infer_instance

/-- Python `str.find`: position of the first occurrence of `sub` in `l`
(`none` models the return value `-1`). -/
def find (sub : Str) : Str → Option Nat
  | [] => if sub = [] then some 0 else none
  | c :: rest =>
      if (c :: rest).take sub.length = sub then some 0
      else (find sub rest).map (· + 1)

/-- Fuel-driven worker for Python `str.split(sep)` (all occurrences). -/
def splitOnSepFuel (sep : Str) : Nat → Str → List Str
  | 0, l => [l]
  | fuel + 1, l =>
      match find sep l with
      | none => [l]
      | some p => l.take p :: splitOnSepFuel sep fuel (l.drop (p + sep.length))

/-- Python `str.split(sep)` for a non-empty separator: cut at every
occurrence of `sep`, keeping empty chunks. -/
def splitOnSep (sep l : Str) : List Str := splitOnSepFuel sep (l.length + 1) l

/-- Python `str.split(sep, 1)`: split at the first occurrence only. -/
def split1 (sep l : Str) : List Str :=
  match find sep l with
  | none => [l]
  | some p => [l.take p, l.drop (p + sep.length)]

/-- Python `str.replace(old, new)` for a non-empty `old`: replace every
occurrence, scanning left to right. -/
def pyReplace (l old new : Str) : Str := List.intercalate new (splitOnSep old l)

/-- Fuel-driven worker for Python's no-argument `str.split()`. -/
def splitWsFuel : Nat → Str → List Str
  | 0, _ => []
  | fuel + 1, l =>
      match l.dropWhile pyIsSpace with
      | [] => []
      | c :: rest =>
          ((c :: rest).takeWhile (fun d => !pyIsSpace d)) ::
            splitWsFuel fuel ((c :: rest).dropWhile (fun d => !pyIsSpace d))

/-- Python `str.split()`: the maximal whitespace-free words of `l`. -/
def splitWs (l : Str) : List Str := splitWsFuel (l.length + 1) l

/-- Fuel-driven worker producing the decimal digits of `n`. -/
def numStrFuel : Nat → Nat → Str → Str
  | 0, _, acc => acc
  | fuel + 1, n, acc =>
      if n < 10 then Nat.digitChar n :: acc
      else numStrFuel fuel (n / 10) (Nat.digitChar (n % 10) :: acc)

/-- Python `f"{n}"`: decimal rendering of a natural number. -/
def numStr (n : Nat) : Str := numStrFuel (n + 1) n []

/-- Python slice `l[a:b]` for `0 ≤ a ≤ b` clamped to the string. -/
def slice (l : Str) (a b : Nat) : Str := (l.drop a).take (b - a)

/-- Number of occurrences of a non-empty `sub` in `l` (non-overlapping,
left to right), via the chunks of `splitOnSep`. -/
def countOcc (sub l : Str) : Nat := (splitOnSep sub l).length - 1

/-! ### The input JSON and the output records -/

/-- A Python JSON value as far as `rr` can observe it: a string, a dict,
or anything else (number, list, null, bool), on which both key access and
string methods raise. -/
inductive Json where
  | str : Str → Json
  | obj : List (Str × Json) → Json
  | other : Json

/-- First binding of key `k` in a dict's entry list. -/
def lookupKey : List (Str × Json) → Str → Option Json
  | [], _ => none
  | (k', v) :: rest, k => if k' = k then some v else lookupKey rest k

/-- Python `j[k]`: raises unless `j` is a dict containing `k`. -/
def getField (j : Json) (k : Str) : Except Unit Json :=
  match j with
  | Json.obj kvs =>
      match lookupKey kvs k with
      | some v => Except.ok v
      | none => Except.error ()
  | _ => Except.error ()

/-- Using a JSON value as a string (a Python string method on it):
raises unless it is a string. -/
def jStr : Json → Except Unit Str
  | Json.str s => Except.ok s
  | _ => Except.error ()

/-- Python `l[i]` for a non-negative index: raises when out of range. -/
def pyIndex {α : Type} (l : List α) (i : Nat) : Except Unit α :=
  match l.get? i with
  | some x => Except.ok x
  | none => Except.error ()

instance {α : Type} [DecidableEq α] : DecidableEq (Except Unit α) := fun x y =>
  match x, y with
  | Except.ok a, Except.ok b =>
      if h : a = b then isTrue (by rw [h])
      else isFalse (fun hh => h (by injection hh))
  | Except.ok _, Except.error _ => isFalse (fun hh => by cases hh)
  | Except.error _, Except.ok _ => isFalse (fun hh => by cases hh)
  | Except.error e, Except.error e' => isTrue (by cases e; cases e'; rfl)

/-- One element of the structured output of `rr`
(`{"diagnosis": ..., "rationale": ..., "likelihood": ...}`). -/
structure DiagRecord where
  diagnosis : Str
  rationale : Str
  likelihood : Str
deriving DecidableEq, Repr

/-- The literal `"(Likelihood: "` (split marker of line 166). -/
def likM : Str := ("(Likelihood: ").data

/-- The literal `"(Likelihood:"` (split marker of line 176, no space). -/
def likM2 : Str := ("(Likelihood:").data

/-- The literal `". "` (ordinal separator of lines 167 and 176). -/
def ordSep : Str := (". ").data

/-- The literal boilerplate marker `"* **Rationale:**"` (line 187). -/
def marker1 : Str := ("* **Rationale:**").data

/-- The literal boilerplate marker
`"* **Clinical Relevance and Features:**"` (line 188). -/
def marker2 : Str := ("* **Clinical Relevance and Features:**").data

/-- The literal `"Clinical"` (truncation anchor of line 193). -/
def clinicalS : Str := ("Clinical").data

/-- Stages 1-3 of the rationale cleanup (lines 187-192): marker removal
with trims, whitespace collapsing, and `"*"` removal with a trim. -/
def preClean (r : Str) : Str :=
  let r1 := strip (pyReplace r marker1 [])
  let r2 := strip (pyReplace r1 marker2 [])
  let r3 := List.intercalate [' '] (splitWs r2)
  strip (pyReplace r3 ['*'] [])

/-- Line 193, `s[s.find("Clinical"):]` with Python `-1` slice semantics:
when `"Clinical"` is absent the slice `s[-1:]` keeps only the last
character (empty when `s` is empty). -/
def clinicalCut (s : Str) : Str :=
  match find clinicalS s with
  | some k => s.drop k
  | none => s.drop (s.length - 1)

/-- The whole rationale cleanup of lines 187-193. -/
def normalize (r : Str) : Str := clinicalCut (preClean r)

/-- The body of one iteration of the loop of lines 164-201: decode the
item, locate its rationale span, clean it up, build the record.  `rJ` is
the (not yet type-checked) `rationale_text` value, `i` the 0-based
enumeration index, `d` the current item and `next?` the following item
when one exists. -/
def processOne (rJ : Json) (i : Nat) (d : Str) (next? : Option Str) :
    Except Unit DiagRecord := do
  let parts := splitOnSep likM d
  let p0 ← pyIndex parts 0
  let nm1 ← pyIndex (split1 ordSep p0) 1
  let diagnosisName := strip nm1
  let p1 ← pyIndex parts 1
  let likelihood := strip (rstripParen p1)
  let rationaleStart := numStr (i + 1) ++ ordSep ++ diagnosisName
  let content ← match next? with
    | some nxt => do
        let nx1 ← pyIndex (split1 ordSep nxt) 1
        let nextName := strip ((splitOnSep likM2 nx1).headD [])
        let nextDiag := numStr (i + 2) ++ ordSep ++ nextName
        let rt ← jStr rJ
        pure (match find rationaleStart rt, find nextDiag rt with
          | some s, some e => strip (slice rt (s + rationaleStart.length) e)
          | _, _ => ([] : Str))
    | none => do
        let rt ← jStr rJ
        pure (match find rationaleStart rt with
          | some s => strip (rt.drop (s + rationaleStart.length))
          | none => ([] : Str))
  pure ⟨diagnosisName, normalize content, likelihood⟩

/-- The loop of lines 164-201 over the remaining items, with `i` the
enumeration index of the first of them; an exception in any iteration
aborts the whole loop, discarding every record built so far. -/
def loop (rJ : Json) (i : Nat) : List Str → Except Unit (List DiagRecord)
  | [] => Except.ok []
  | d :: rest => do
      let r ← processOne rJ i d rest.head?
      let rs ← loop rJ (i + 1) rest
      Except.ok (r :: rs)

/-- Line 160: the non-empty trimmed lines of the diagnosis text. -/
def itemsOf (dt : Str) : List Str :=
  ((splitOnSep ['\n'] dt).map strip).filter (fun s => !s.isEmpty)

/-- The dict key `"data"`. -/
def keyData : Str := ("data").data

/-- The dict key `"output"`. -/
def keyOutput : Str := ("output").data

/-- The dict key `"diagnosis"`. -/
def keyDiagnosis : Str := ("diagnosis").data

/-- The dict key `"rationale"`. -/
def keyRationale : Str := ("rationale").data

/-- The `try` body of `rr` (lines 154-203): field extraction in source
order, line splitting, and the item loop. -/
def rrCore (j : Json) : Except Unit (List DiagRecord) := do
  let d1 ← getField j keyData
  let o1 ← getField d1 keyOutput
  let dJ ← getField o1 keyDiagnosis
  let d2 ← getField j keyData
  let o2 ← getField d2 keyOutput
  let rJ ← getField o2 keyRationale
  let dt ← jStr dJ
  loop rJ 0 (itemsOf dt)

/-- Lines 156-157 followed by line 160's string use: the extracted
`diagnosis` field as a string. -/
def extractDiagText (j : Json) : Except Unit Str := do
  let d1 ← getField j keyData
  let o1 ← getField d1 keyOutput
  let dJ ← getField o1 keyDiagnosis
  jStr dJ

/-- The function `rr` of lines 144-207: the `try` body, with any exception
caught and turned into the empty list (lines 205-207). -/
def rr (j : Json) : List DiagRecord :=
  match rrCore j with
  | Except.ok l => l
  | Except.error _ => []

/-- Convenience constructor for the only input shape the happy path
reads: `{"data": {"output": {"diagnosis": dt, "rationale": rt}}}`. -/
def mkInput (dt rt : Str) : Json :=
  Json.obj [(keyData, Json.obj [(keyOutput,
    Json.obj [(keyDiagnosis, Json.str dt), (keyRationale, Json.str rt)])])]

/-! ### Spec-side views of the item decoder, for stating claims -/

/-- `diag_parts[0]` of line 166: the segment before the first likelihood
marker (the whole line when the marker is absent). -/
def nameSeg (d : Str) : Str := (splitOnSep likM d).headD []

/-- The diagnosis name line 167 extracts from an item, when the ordinal
separator is present. -/
def nameOf (d : Str) : Option Str :=
  ((split1 ordSep (nameSeg d)).get? 1).map strip

/-- The heading `f"{i+1}. {diagnosis_name}"` of line 171 built for the
item at 0-based index `i`. -/
def headingOf (i : Nat) (d : Str) : Option Str :=
  (nameOf d).map (fun nm => numStr (i + 1) ++ ordSep ++ nm)

/-- The name line 176 extracts from the following item. -/
def nextNameOf (nxt : Str) : Option Str :=
  ((split1 ordSep nxt).get? 1).map (fun s => strip ((splitOnSep likM2 s).headD []))

/-- The heading `f"{i+2}. {next_name}"` of line 176 built from the item
following index `i`. -/
def nextHeadingOf (i : Nat) (nxt : Str) : Option Str :=
  (nextNameOf nxt).map (fun nm => numStr (i + 2) ++ ordSep ++ nm)

/-- The likelihood segment of an item, characterised positionally: the
text strictly between the end of the first `"(Likelihood: "` marker and
the next occurrence of that marker (or the end of the line). -/
def likSeg (d : Str) : Option Str :=
  match find likM d with
  | none => none
  | some p =>
      let rest := d.drop (p + likM.length)
      some (match find likM rest with
        | none => rest
        | some q => rest.take q)

/-! ### Well-formed inputs, for the universally quantified claims -/

/-- A diagnosis name as the well-formed-input claim assumes it: trimmed,
on one line, and free of parentheses (so the likelihood marker and the
closing parenthesis of its own line cannot occur inside it). -/
def WfName (nm : Str) : Prop :=
  stripStart nm = nm ∧ stripEnd nm = nm ∧ '(' ∉ nm ∧ ')' ∉ nm ∧ '\n' ∉ nm

/-- A likelihood label as the well-formed-input claim assumes it:
trimmed, on one line, and free of parentheses. -/
def WfLabel (lb : Str) : Prop :=
  stripStart lb = lb ∧ stripEnd lb = lb ∧ '(' ∉ lb ∧ ')' ∉ lb ∧ '\n' ∉ lb

/-- The diagnosis line `"<n>. <name> (Likelihood: <label>)"`. -/
def mkLine (n : Nat) (nm lb : Str) : Str :=
  numStr n ++ ordSep ++ nm ++ [' '] ++ likM ++ lb ++ [')']

/-- The diagnosis lines for consecutive numbers starting at `n`. -/
def numberedLines (n : Nat) : List (Str × Str) → List Str
  | [] => []
  | (nm, lb) :: rest => mkLine n nm lb :: numberedLines (n + 1) rest

/-- A whole well-formed diagnosis text: the numbered lines (starting at
1) joined by newlines. -/
def mkDiagText (ps : List (Str × Str)) : Str :=
  List.intercalate ['\n'] (numberedLines 1 ps)

/-! ### The already-normalized strings of the idempotence claim -/

/-- No two adjacent whitespace characters. -/
def noWsRun : Str → Bool
  | [] => true
  | [_] => true
  | a :: b :: t => (!(pyIsSpace a && pyIsSpace b)) && noWsRun (b :: t)

/-- An already-normalized rationale in the sense of the idempotence
claim: no `'*'`, every whitespace character is a plain space, single
spaced, trimmed, and starting with `"Clinical"`. -/
def Normalized (s : Str) : Prop :=
  '*' ∉ s ∧ (∀ c ∈ s, pyIsSpace c = true → c = ' ') ∧ noWsRun s = true ∧
    stripStart s = s ∧ stripEnd s = s ∧ s.take 8 = clinicalS

instance (s : Str) : Decidable (Normalized s) := by
  unfold Normalized
  infer_instance

instance (nm : Str) : Decidable (WfName nm) := by
  unfold WfName
  infer_instance

instance (lb : Str) : Decidable (WfLabel lb) := by
  unfold WfLabel
  infer_instance

/-! ### Lemmas about occurrences and `find` -/

theorem occursAt_zero_iff {sub l : Str} :
    occursAt sub l 0 ↔ l.take sub.length = sub := by
  simp [occursAt]

theorem occursAt_succ_cons {sub : Str} {c : Char} {rest : Str} {q : Nat} :
    occursAt sub (c :: rest) (q + 1) ↔ occursAt sub rest q := by
  simp [occursAt]

theorem find_eq_some_iff {sub l : Str} {p : Nat} :
    find sub l = some p ↔ occursAt sub l p ∧ ∀ q < p, ¬ occursAt sub l q := by
  induction l generalizing p with
  | nil =>
      by_cases hs : sub = []
      · subst hs
        simp only [find, if_pos rfl]
        constructor
        · rintro ⟨rfl⟩
          exact ⟨rfl, by omega⟩
        · rintro ⟨-, hmin⟩
          rcases Nat.eq_zero_or_pos p with rfl | hp
          · rfl
          · exact absurd rfl (hmin 0 hp)
      · simp only [find, if_neg hs]
        constructor
        · rintro ⟨⟩
        · rintro ⟨h, -⟩
          exact absurd h.symm (by simpa [occursAt] using hs)
  | cons c rest ih =>
      by_cases h0 : (c :: rest).take sub.length = sub
      · simp only [find, if_pos h0]
        constructor
        · rintro ⟨rfl⟩
          exact ⟨occursAt_zero_iff.mpr h0, by omega⟩
        · rintro ⟨-, hmin⟩
          rcases Nat.eq_zero_or_pos p with rfl | hp
          · rfl
          · exact absurd (occursAt_zero_iff.mpr h0) (hmin 0 hp)
      · simp only [find, if_neg h0, Option.map_eq_some']
        constructor
        · rintro ⟨p', hp', rfl⟩
          have := ih.mp hp'
          refine ⟨occursAt_succ_cons.mpr this.1, ?_⟩
          intro q hq
          cases q with
          | zero => exact fun h => h0 (occursAt_zero_iff.mp h)
          | succ q' =>
              intro h
              exact this.2 q' (by omega) (occursAt_succ_cons.mp h)
        · rintro ⟨hp, hmin⟩
          cases p with
          | zero => exact absurd (occursAt_zero_iff.mp hp) h0
          | succ p' =>
              refine ⟨p', ih.mpr ⟨occursAt_succ_cons.mp hp, ?_⟩, rfl⟩
              intro q hq h
              exact hmin (q + 1) (by omega) (occursAt_succ_cons.mpr h)

theorem find_eq_none_iff {sub l : Str} :
    find sub l = none ↔ ∀ q, ¬ occursAt sub l q := by
  induction l with
  | nil =>
      by_cases hs : sub = []
      · subst hs
        simp only [find, if_pos rfl]
        constructor
        · rintro ⟨⟩
        · intro h
          exact absurd rfl (h 0)
      · simp only [find, if_neg hs]
        simp only [true_iff]
        intro q h
        exact hs (by simpa [occursAt] using h.symm)
  | cons c rest ih =>
      by_cases h0 : (c :: rest).take sub.length = sub
      · simp only [find, if_pos h0]
        constructor
        · rintro ⟨⟩
        · intro h
          exact absurd (occursAt_zero_iff.mpr h0) (h 0)
      · simp only [find, if_neg h0, Option.map_eq_none']
        rw [ih]
        constructor
        · intro h q
          cases q with
          | zero => exact fun hh => h0 (occursAt_zero_iff.mp hh)
          | succ q' => exact fun hh => h q' (occursAt_succ_cons.mp hh)
        · intro h q hh
          exact h (q + 1) (occursAt_succ_cons.mpr hh)

theorem occursAt_getElem? {c : Char} {s l : Str} {q : Nat}
    (h : occursAt (c :: s) l q) : l[q]? = some c := by
  unfold occursAt at h
  rcases hdq : l.drop q with _ | ⟨d, t⟩
  · rw [hdq] at h
    simp at h
  · rw [hdq] at h
    simp only [List.length_cons, List.take_succ_cons, List.cons.injEq] at h
    have h0 : l[q]? = (l.drop q)[0]? := by
      rw [List.getElem?_drop, Nat.add_zero]
    rw [h0, hdq]
    simp [h.1]

theorem occursAt_append {pre sub post : Str} :
    occursAt sub (pre ++ sub ++ post) pre.length := by
  unfold occursAt
  rw [List.append_assoc, List.drop_left, List.take_left]

theorem occursAt_length_le {sub l : Str} {p : Nat}
    (h : occursAt sub l p) (hs : sub ≠ []) : p + sub.length ≤ l.length := by
  unfold occursAt at h
  have hlen := congrArg List.length h
  simp only [List.length_take, List.length_drop] at hlen
  have h1 : sub.length ≠ 0 := fun hh => hs (List.length_eq_zero.mp hh)
  omega

theorem find_sandwich {pre sub post : Str}
    (hmin : ∀ q < pre.length, ¬ occursAt sub (pre ++ sub ++ post) q) :
    find sub (pre ++ sub ++ post) = some pre.length :=
  find_eq_some_iff.mpr ⟨occursAt_append, hmin⟩

theorem not_occursAt_of_notMem {c : Char} {s l : Str} {q : Nat}
    (hc : c ∉ l) : ¬ occursAt (c :: s) l q := by
  intro h
  exact hc (List.getElem?_mem (occursAt_getElem? h))

theorem find_eq_none_of_notMem {c : Char} {s l : Str} (hc : c ∉ l) :
    find (c :: s) l = none :=
  find_eq_none_iff.mpr fun _ => not_occursAt_of_notMem hc

theorem not_occursAt_append_left {c : Char} {s pre rest : Str} {q : Nat}
    (hq : q < pre.length) (hc : c ∉ pre) :
    ¬ occursAt (c :: s) (pre ++ rest) q := by
  intro h
  have h1 := occursAt_getElem? h
  rw [List.getElem?_append_left hq] at h1
  exact hc (List.getElem?_mem h1)

/-! ### Lemmas about `splitOnSep` and its relatives -/

theorem splitOnSepFuel_congr {sep : Str} (hs : sep ≠ []) :
    ∀ f₁ f₂ l, l.length < f₁ → l.length < f₂ →
      splitOnSepFuel sep f₁ l = splitOnSepFuel sep f₂ l := by
  intro f₁
  induction f₁ with
  | zero => intro f₂ l h1 h2; omega
  | succ f ih =>
      intro f₂ l h1 h2
      cases f₂ with
      | zero => omega
      | succ f₂' =>
          simp only [splitOnSepFuel]
          cases hf : find sep l with
          | none => rfl
          | some p =>
              dsimp only
              have hocc := (find_eq_some_iff.mp hf).1
              have hb := occursAt_length_le hocc hs
              have hsl : sep.length ≠ 0 := fun hh => hs (List.length_eq_zero.mp hh)
              have hlen : (l.drop (p + sep.length)).length < f := by
                simp only [List.length_drop]
                omega
              have hlen₂ : (l.drop (p + sep.length)).length < f₂' := by
                simp only [List.length_drop]
                omega
              rw [ih f₂' _ hlen hlen₂]

theorem splitOnSep_unfold (sep l : Str) :
    splitOnSep sep l =
      match find sep l with
      | none => [l]
      | some p => l.take p :: splitOnSepFuel sep l.length (l.drop (p + sep.length)) := rfl

theorem splitOnSep_eq {sep : Str} (hs : sep ≠ []) (l : Str) :
    splitOnSep sep l =
      match find sep l with
      | none => [l]
      | some p => l.take p :: splitOnSep sep (l.drop (p + sep.length)) := by
  rw [splitOnSep_unfold]
  cases hf : find sep l with
  | none => rfl
  | some p =>
      dsimp only
      have hocc := (find_eq_some_iff.mp hf).1
      have hb := occursAt_length_le hocc hs
      have hsl : sep.length ≠ 0 := fun hh => hs (List.length_eq_zero.mp hh)
      have h1 : (l.drop (p + sep.length)).length < l.length := by
        simp only [List.length_drop]
        omega
      congr 1
      exact splitOnSepFuel_congr hs l.length ((l.drop (p + sep.length)).length + 1)
        (l.drop (p + sep.length)) h1 (Nat.lt_succ_self _)

theorem splitOnSep_ne_nil (sep l : Str) : splitOnSep sep l ≠ [] := by
  unfold splitOnSep
  generalize l.length + 1 = fuel
  cases fuel with
  | zero => simp [splitOnSepFuel]
  | succ f =>
      simp only [splitOnSepFuel]
      cases find sep l <;> simp

theorem splitOnSep_of_find_none {sep l : Str} (hs : sep ≠ [])
    (hf : find sep l = none) : splitOnSep sep l = [l] := by
  rw [splitOnSep_eq hs, hf]

theorem splitOnSep_of_find_some {sep l : Str} {p : Nat} (hs : sep ≠ [])
    (hf : find sep l = some p) :
    splitOnSep sep l = l.take p :: splitOnSep sep (l.drop (p + sep.length)) := by
  rw [splitOnSep_eq hs, hf]

theorem splitOnSep_get1 {sep l : Str} (hs : sep ≠ []) :
    (splitOnSep sep l).get? 1 =
      match find sep l with
      | none => none
      | some p =>
          some (match find sep (l.drop (p + sep.length)) with
            | none => l.drop (p + sep.length)
            | some q => (l.drop (p + sep.length)).take q) := by
  cases hf : find sep l with
  | none => rw [splitOnSep_of_find_none hs hf]; rfl
  | some p =>
      rw [splitOnSep_of_find_some hs hf]
      dsimp only
      cases hf2 : find sep (l.drop (p + sep.length)) with
      | none =>
          rw [List.get?_cons_succ, splitOnSep_of_find_none hs hf2]
          rfl
      | some q =>
          rw [List.get?_cons_succ, splitOnSep_of_find_some hs hf2]
          rfl

theorem pyIndex_eq_ok {α : Type} {l : List α} {i : Nat} {x : α} :
    pyIndex l i = Except.ok x ↔ l.get? i = some x := by
  unfold pyIndex
  cases l.get? i <;> simp

theorem pyIndex_zero_of_ne_nil {l : List Str} (h : l ≠ []) :
    pyIndex l 0 = Except.ok (l.headD []) := by
  cases l with
  | nil => exact absurd rfl h
  | cons a t => rfl

/-! ### Except plumbing -/

theorem bind_eq_ok {α β : Type} {x : Except Unit α} {f : α → Except Unit β} {b : β} :
    x >>= f = Except.ok b ↔ ∃ a, x = Except.ok a ∧ f a = Except.ok b := by
  cases x <;> simp [Bind.bind, Except.bind]

theorem bind_eq_error {α β : Type} {x : Except Unit α} {f : α → Except Unit β} {e : Unit} :
    x >>= f = Except.error e ↔
      x = Except.error e ∨ ∃ a, x = Except.ok a ∧ f a = Except.error e := by
  cases x with
  | error u => cases u; cases e; simp [Bind.bind, Except.bind]
  | ok a => simp [Bind.bind, Except.bind]

/-! ### Decimal digits -/

theorem digitChar_isDigit {n : Nat} (h : n < 10) : (Nat.digitChar n).isDigit = true := by
  interval_cases n <;> decide

theorem numStrFuel_digits :
    ∀ fuel n acc, (∀ c ∈ acc, c.isDigit = true) →
      ∀ c ∈ numStrFuel fuel n acc, c.isDigit = true := by
  intro fuel
  induction fuel with
  | zero => intro n acc hacc; exact hacc
  | succ f ih =>
      intro n acc hacc c hc
      simp only [numStrFuel] at hc
      split at hc
      · rcases List.mem_cons.mp hc with rfl | hm
        · exact digitChar_isDigit (by assumption)
        · exact hacc c hm
      · refine ih (n / 10) _ ?_ c hc
        intro d hd
        rcases List.mem_cons.mp hd with rfl | hm
        · exact digitChar_isDigit (Nat.mod_lt _ (by omega))
        · exact hacc d hm

theorem numStr_digits {n : Nat} : ∀ c ∈ numStr n, c.isDigit = true :=
  numStrFuel_digits (n + 1) n [] (by simp)

theorem numStrFuel_acc_ne : ∀ fuel n acc, acc ≠ [] → numStrFuel fuel n acc ≠ [] := by
  intro fuel
  induction fuel with
  | zero => intro n acc h; exact h
  | succ f ih =>
      intro n acc h
      simp only [numStrFuel]
      split
      · simp
      · exact ih (n / 10) _ (by simp)

theorem numStr_ne_nil (n : Nat) : numStr n ≠ [] := by
  unfold numStr
  simp only [numStrFuel]
  split
  · simp
  · exact numStrFuel_acc_ne _ _ _ (by simp)

theorem digit_ne {c x : Char} (h : c.isDigit = true) (hx : x.isDigit = false) :
    c ≠ x := by
  intro heq
  rw [heq, hx] at h
  cases h

theorem digit_not_space {c : Char} (h : c.isDigit = true) : pyIsSpace c = false := by
  have h1 : c ≠ ' ' := digit_ne h (by decide)
  have h2 : c ≠ '\t' := digit_ne h (by decide)
  have h3 : c ≠ '\n' := digit_ne h (by decide)
  have h4 : c ≠ '\r' := digit_ne h (by decide)
  have h5 : c ≠ '\x0b' := digit_ne h (by decide)
  have h6 : c ≠ '\x0c' := digit_ne h (by decide)
  simp [pyIsSpace, h1, h2, h3, h4, h5, h6]

/-! ### Trimming lemmas -/

theorem stripStart_cons {c : Char} {t : Str} (h : pyIsSpace c = false) :
    stripStart (c :: t) = c :: t := by
  simp [stripStart, List.dropWhile_cons, h]

theorem stripEnd_append_last {l : Str} {c : Char} (h : pyIsSpace c = false) :
    stripEnd (l ++ [c]) = l ++ [c] := by
  simp [stripEnd, List.reverse_append, List.dropWhile_cons, h]

theorem strip_eq_self {l : Str} (h1 : stripStart l = l) (h2 : stripEnd l = l) :
    strip l = l := by
  unfold strip
  rw [h1, h2]

theorem head_not_space_of_stripStart {c : Char} {t : Str}
    (h : stripStart (c :: t) = c :: t) : pyIsSpace c = false := by
  by_contra hc
  rw [Bool.not_eq_false] at hc
  have h2 : stripStart (c :: t) = t.dropWhile pyIsSpace := by
    simp [stripStart, List.dropWhile_cons, hc]
  rw [h2] at h
  have hlen := (List.dropWhile_sublist (l := t) pyIsSpace).length_le
  have := congrArg List.length h
  simp only [List.length_cons] at this
  omega

theorem stripEnd_append_space (x : Str) : stripEnd (x ++ [' ']) = stripEnd x := by
  unfold stripEnd
  rw [List.reverse_append]
  simp [List.dropWhile_cons, show pyIsSpace ' ' = true from rfl]

theorem strip_append_space {nm : Str} (h1 : stripStart nm = nm) (h2 : stripEnd nm = nm) :
    strip (nm ++ [' ']) = nm := by
  cases nm with
  | nil => decide
  | cons c t =>
      have hc := head_not_space_of_stripStart h1
      unfold strip
      rw [List.cons_append, stripStart_cons hc, ← List.cons_append,
        stripEnd_append_space, h2]

theorem rstripParen_append {lb : Str} (h : ')' ∉ lb) :
    rstripParen (lb ++ [')']) = lb := by
  unfold rstripParen
  rw [List.reverse_append]
  simp only [List.reverse_cons, List.reverse_nil, List.nil_append,
    List.singleton_append, List.dropWhile_cons]
  rw [if_pos (by simp)]
  have h2 : (List.reverse lb).dropWhile (fun c => c = ')') = List.reverse lb := by
    cases hr : List.reverse lb with
    | nil => rfl
    | cons a s =>
        have ha : a ∈ lb := by
          rw [← List.mem_reverse, hr]
          simp
        have ha2 : ¬(a = ')') := fun hh => h (hh ▸ ha)
        simp [List.dropWhile_cons, ha2]
  rw [h2, List.reverse_reverse]

theorem ok_bind {α β : Type} {a : α} {f : α → Except Unit β} :
    (Except.ok a >>= f) = f a := rfl

theorem error_bind {α β : Type} {f : α → Except Unit β} :
    (Except.error () >>= f) = Except.error () := rfl

theorem pure_eq_ok {α : Type} {a : α} : (pure a : Except Unit α) = Except.ok a := rfl

theorem pyIndex_cons_zero {α : Type} {a : α} {t : List α} :
    pyIndex (a :: t) 0 = Except.ok a := rfl

theorem pyIndex_singleton_one {α : Type} {a : α} :
    pyIndex [a] 1 = Except.error () := rfl

/-! ### Structure of the item loop -/

theorem processOne_error_of_no_marker {rJ : Json} {i : Nat} {d : Str}
    {next? : Option Str} (h : find likM d = none) :
    processOne rJ i d next? = Except.error () := by
  have hparts : splitOnSep likM d = [d] :=
    splitOnSep_of_find_none (by decide) h
  cases h1 : pyIndex (split1 ordSep d) 1 with
  | error e =>
      cases e
      simp only [processOne, hparts, pyIndex_cons_zero, ok_bind, h1, error_bind]
  | ok nm1 =>
      simp only [processOne, hparts, pyIndex_cons_zero, ok_bind, h1,
        pyIndex_singleton_one, error_bind]

theorem loop_error_of_bad_item {rJ : Json} :
    ∀ (items : List Str) (i : Nat),
      (∃ d ∈ items, find likM d = none) → loop rJ i items = Except.error () := by
  intro items
  induction items with
  | nil =>
      rintro i ⟨d, hd, -⟩
      cases hd
  | cons a rest ih =>
      rintro i ⟨d, hd, hfind⟩
      rcases List.mem_cons.mp hd with rfl | hmem
      · simp only [loop, processOne_error_of_no_marker hfind, error_bind]
      · cases hp : processOne rJ i a rest.head? with
        | error e =>
            cases e
            simp only [loop, hp, error_bind]
        | ok r =>
            simp only [loop, hp, ok_bind, ih (i + 1) ⟨d, hmem, hfind⟩, error_bind]

theorem loop_length {rJ : Json} :
    ∀ (items : List Str) (i : Nat) (l : List DiagRecord),
      loop rJ i items = Except.ok l → l.length = items.length := by
  intro items
  induction items with
  | nil =>
      intro i l h
      simp only [loop] at h
      injection h with h
      rw [← h]
      rfl
  | cons d rest ih =>
      intro i l h
      simp only [loop] at h
      rw [bind_eq_ok] at h
      obtain ⟨r, hr, h⟩ := h
      rw [bind_eq_ok] at h
      obtain ⟨rs, hrs, h⟩ := h
      injection h with h
      rw [← h]
      simp [ih (i + 1) rs hrs]

/-! ### Claim theorems -/

set_option maxRecDepth 10000 in
/-- Claim C5: on the concrete two-diagnosis input of the spec's test
scenario, `rr` returns exactly the two expected records, in order. -/
theorem C5_concrete_scenario :
    rr (mkInput
      ("1. Influenza (Likelihood: High)\n2. Common Cold (Likelihood: Low)").data
      ("1. Influenza * **Rationale:** Clinical signs include fever and cough. 2. Common Cold Clinical signs are mild congestion.").data) =
    [⟨("Influenza").data, ("Clinical signs include fever and cough.").data,
      ("High").data⟩,
     ⟨("Common Cold").data, ("Clinical signs are mild congestion.").data,
      ("Low").data⟩] := by
  decide

/-- Claim C3: `rr` never propagates an exception: on every input, either
its `try` body succeeds and `rr` returns that list, or the body raises,
the handler catches it, and `rr` returns the empty list. -/
theorem C3_no_exception (j : Json) :
    rrCore j = Except.ok (rr j) ∨ (rrCore j = Except.error () ∧ rr j = []) := by
  cases h : rrCore j with
  | ok l =>
      left
      unfold rr
      rw [h]
  | error e =>
      right
      cases e
      refine ⟨rfl, ?_⟩
      unfold rr
      rw [h]

/-- Claim C9: all-or-nothing cardinality: the list returned by `rr` is
either empty, or has exactly one record per non-empty trimmed line of the
diagnosis text; a decoding failure anywhere empties the whole result. -/
theorem C9_all_or_nothing (j : Json) :
    rr j = [] ∨
      ∃ dt, extractDiagText j = Except.ok dt ∧
        (rr j).length = (itemsOf dt).length := by
  cases h : rrCore j with
  | error e =>
      left
      unfold rr
      rw [h]
  | ok l =>
      right
      simp only [rrCore, bind_eq_ok] at h
      obtain ⟨d1, hd1, o1, ho1, dJ, hdJ, d2, hd2, o2, ho2, rJ, hrJ, dt, hdt, hloop⟩ := h
      refine ⟨dt, ?_, ?_⟩
      · simp only [extractDiagText, bind_eq_ok]
        exact ⟨d1, hd1, o1, ho1, dJ, hdJ, hdt⟩
      · have hrr : rr j = l := by
          unfold rr
          rw [show rrCore j = Except.ok l from ?_]
          · simp only [rrCore, bind_eq_ok]
            exact ⟨d1, hd1, o1, ho1, dJ, hdJ, d2, hd2, o2, ho2, rJ, hrJ, dt, hdt, hloop⟩
        rw [hrr]
        exact loop_length (itemsOf dt) 0 l hloop

/-- Claim C2, counterexample: with three well-formed lines and one line
lacking the likelihood marker, `rr` does not return the three well-formed
records: the `IndexError` raised on the malformed line is caught by the
whole-parse handler, and the result is the empty list. -/
theorem C2_counterexample :
    rr (mkInput
      ("1. Flu (Likelihood: High)\n2. Cold (Likelihood: Low)\n3. Missing likelihood here\n4. Cough (Likelihood: Low)").data
      ("1. Flu Clinical a. 2. Cold Clinical b. 3. Missing likelihood here Clinical c. 4. Cough Clinical d.").data) = [] ∧
    (rr (mkInput
      ("1. Flu (Likelihood: High)\n2. Cold (Likelihood: Low)\n3. Missing likelihood here\n4. Cough (Likelihood: Low)").data
      ("1. Flu Clinical a. 2. Cold Clinical b. 3. Missing likelihood here Clinical c. 4. Cough Clinical d.").data)).length ≠ 3 := by
  constructor
  · decide
  · decide

/-- Claim C4, counterexample: when the cleaned rationale span does not
contain `"Clinical"`, the emitted rationale is not the empty string: for
the span `"fever and cough"` the record carries `"h"`, the last character,
because `find` returns `-1` and the Python slice `s[-1:]` keeps it. -/
theorem C4_counterexample :
    (rr (mkInput ("1. Flu (Likelihood: High)").data
      ("1. Flu fever and cough").data)).map DiagRecord.rationale =
      [("h").data] ∧ ("h").data ≠ ([] : Str) := by
  constructor
  · decide
  · decide

/-- Claim C8, counterexample: for the line
`"1. Flu (Likelihood: High (uncertain))"` the emitted likelihood is
`"High (uncertain"`: `rstrip(")")` removes every trailing parenthesis,
not just the one matching the marker, so the text up to the matching
`")"`, which would be `"High (uncertain)"`, is not what is returned. -/
theorem C8_counterexample :
    (rr (mkInput ("1. Flu (Likelihood: High (uncertain))").data
      ("1. Flu Clinical x").data)).map DiagRecord.likelihood =
      [("High (uncertain").data] ∧
    (rr (mkInput ("1. Flu (Likelihood: High (uncertain))").data
      ("1. Flu Clinical x").data)).map DiagRecord.likelihood ≠
      [("High (uncertain)").data] := by
  constructor
  · decide
  · decide

/-- Claim C10, counterexample: an emitted rationale can contain a run of
two spaces: removing `"*"` after whitespace collapsing leaves the two
spaces that surrounded it, so `"Clinical a * b"` becomes
`"Clinical a  b"`. -/
theorem C10_counterexample :
    (rr (mkInput ("1. Flu (Likelihood: High)").data
      ("1. Flu Clinical a * b").data)).map DiagRecord.rationale =
      [("Clinical a  b").data] ∧
    find ("  ").data (("Clinical a  b").data) = some 10 := by
  constructor
  · decide
  · decide

/-- Claim C2 as amended: a diagnosis line lacking the likelihood marker
is not skipped: the per-item failure propagates to the whole-parse
handler and `rr` returns the empty list, dropping the well-formed lines
as well. -/
theorem C2_malformed_aborts (j : Json) (dt : Str)
    (hdt : extractDiagText j = Except.ok dt)
    (hbad : ∃ d ∈ itemsOf dt, find likM d = none) :
    rr j = [] := by
  unfold rr
  cases hc : rrCore j with
  | error e => rfl
  | ok l =>
      exfalso
      simp only [rrCore, bind_eq_ok] at hc
      obtain ⟨d1, hd1, o1, ho1, dJ, hdJ, d2, hd2, o2, ho2, rJ, hrJ, dt', hdt', hloop⟩ := hc
      simp only [extractDiagText, bind_eq_ok] at hdt
      obtain ⟨e1, he1, e2, he2, e3, he3, he4⟩ := hdt
      rw [hd1] at he1
      injection he1 with he1
      subst he1
      rw [ho1] at he2
      injection he2 with he2
      subst he2
      rw [hdJ] at he3
      injection he3 with he3
      subst he3
      rw [hdt'] at he4
      injection he4 with he4
      subst he4
      rw [loop_error_of_bad_item (itemsOf dt') 0 hbad] at hloop
      cases hloop

/-- Witness for C2: the amended theorem applied to the concrete
three-good-one-bad input. -/
theorem C2_witness :
    rr (mkInput
      ("1. Flu (Likelihood: High)\n2. Cold (Likelihood: Low)\n3. Missing likelihood here\n4. Cough (Likelihood: Low)").data
      ("1. Flu Clinical a. 2. Cold Clinical b. 3. Missing likelihood here Clinical c. 4. Cough Clinical d.").data) = [] :=
  C2_malformed_aborts _
    (("1. Flu (Likelihood: High)\n2. Cold (Likelihood: Low)\n3. Missing likelihood here\n4. Cough (Likelihood: Low)").data)
    (by decide) (by decide)

/-- Claim C4 as amended: after cleanup, when `"Clinical"` does not occur
the rationale is the last character of the cleaned text (empty only when
that text is empty), because Python `find` returns `-1` and `s[-1:]`
keeps the last character; when `"Clinical"` occurs, the rationale starts
at its first occurrence with everything before it dropped. -/
theorem C4_clinical_truncation (r : Str) :
    (find clinicalS (preClean r) = none →
      normalize r = (preClean r).drop ((preClean r).length - 1)) ∧
    (∀ k, find clinicalS (preClean r) = some k →
      normalize r = (preClean r).drop k ∧ occursAt clinicalS (preClean r) k ∧
        ∀ q < k, ¬ occursAt clinicalS (preClean r) q) := by
  constructor
  · intro h
    unfold normalize clinicalCut
    rw [h]
  · intro k h
    refine ⟨?_, (find_eq_some_iff.mp h).1, (find_eq_some_iff.mp h).2⟩
    unfold normalize clinicalCut
    rw [h]

/-- Witness for C4: the amended theorem applied to the concrete cleaned
text `"fever and cough"`, whose rationale is its last character `"h"`. -/
theorem C4_witness :
    find clinicalS (preClean (("fever and cough").data)) = none ∧
    normalize (("fever and cough").data) = ("h").data := by
  refine ⟨by decide, ?_⟩
  rw [(C4_clinical_truncation (("fever and cough").data)).1 (by decide)]
  decide

theorem splitOnSep_likM_get1 (d : Str) :
    (splitOnSep likM d).get? 1 = likSeg d := by
  rw [splitOnSep_get1 (show likM ≠ [] by decide)]
  unfold likSeg
  exact rfl

theorem normalize_nil : normalize [] = [] := by decide

theorem headD_of_get?_zero {l : List Str} {x : Str} (h : l.get? 0 = some x) :
    l.headD [] = x := by
  cases l with
  | nil => cases h
  | cons a t => injection h with h

/-- Claim C6: an item whose bounding heading is missing from the
rationale text (its own heading, or, for a non-last item, the next
item's heading) still yields a record, with the empty string as its
rationale; a missing heading never makes `processOne` fail. -/
theorem C6_missing_heading_empty_rationale (rt : Str) (i : Nat) (d : Str)
    (next? : Option Str) (r : DiagRecord) (hd : Str)
    (hok : processOne (Json.str rt) i d next? = Except.ok r)
    (hhd : headingOf i d = some hd)
    (hmiss : find hd rt = none ∨
      ∃ nxt nh, next? = some nxt ∧ nextHeadingOf i nxt = some nh ∧
        find nh rt = none) :
    r.rationale = [] := by
  cases next? with
  | none =>
      simp only [processOne, bind_eq_ok, pure_eq_ok] at hok
      obtain ⟨p0, hp0, nm1, hnm1, p1, hp1, rt', hrt', content, hcontent, hpure⟩ := hok
      simp only [jStr] at hrt'
      injection hrt' with hrt'
      subst hrt'
      rw [pyIndex_eq_ok] at hp0 hnm1
      have hp0' : nameSeg d = p0 := headD_of_get?_zero hp0
      have hname : nameOf d = some (strip nm1) := by
        unfold nameOf
        rw [hp0', hnm1]
        rfl
      unfold headingOf at hhd
      rw [hname] at hhd
      injection hhd with hhd
      rcases hmiss with hm | ⟨nxt, nh, hnxt, -, -⟩
      · rw [← hhd] at hm
        rw [hm] at hcontent
        injection hcontent with hcontent
        injection hpure with hpure
        have hc : content = [] := by rw [← hcontent]
        subst hc
        rw [← hpure]
        exact normalize_nil
      · cases hnxt
  | some nxt =>
      simp only [processOne, bind_eq_ok, pure_eq_ok] at hok
      obtain ⟨p0, hp0, nm1, hnm1, p1, hp1, nx1, hnx1, rt', hrt', content, hcontent, hpure⟩ := hok
      simp only [jStr] at hrt'
      injection hrt' with hrt'
      subst hrt'
      rw [pyIndex_eq_ok] at hp0 hnm1 hnx1
      have hp0' : nameSeg d = p0 := headD_of_get?_zero hp0
      have hname : nameOf d = some (strip nm1) := by
        unfold nameOf
        rw [hp0', hnm1]
        rfl
      unfold headingOf at hhd
      rw [hname] at hhd
      injection hhd with hhd
      rcases hmiss with hm | ⟨nxt', nh, hnxt, hnh, hm⟩
      · rw [← hhd] at hm
        rw [hm] at hcontent
        injection hcontent with hcontent
        injection hpure with hpure
        have hc : content = [] := by rw [← hcontent]
        subst hc
        rw [← hpure]
        exact normalize_nil
      · injection hnxt with hnxt
        subst hnxt
        unfold nextHeadingOf nextNameOf at hnh
        rw [hnx1] at hnh
        simp only [Option.map_some'] at hnh
        injection hnh with hnh
        rw [← hnh] at hm
        rw [hm] at hcontent
        cases hfc : find (numStr (i + 1) ++ ordSep ++ strip nm1) rt with
        | none =>
            rw [hfc] at hcontent
            injection hcontent with hcontent
            injection hpure with hpure
            have hc : content = [] := by rw [← hcontent]
            subst hc
            rw [← hpure]
            exact normalize_nil
        | some s =>
            rw [hfc] at hcontent
            injection hcontent with hcontent
            injection hpure with hpure
            have hc : content = [] := by rw [← hcontent]
            subst hc
            rw [← hpure]
            exact normalize_nil

/-- Witness for C6: the amended-free claim applied to a concrete one-item
input whose heading does not occur in the rationale text. -/
theorem C6_witness :
    processOne (Json.str (("nothing relevant here").data)) 0
      (("1. Flu (Likelihood: High)").data) none =
      Except.ok ⟨("Flu").data, [], ("High").data⟩ ∧
    (⟨("Flu").data, [], ("High").data⟩ : DiagRecord).rationale = [] :=
  ⟨by decide,
    C6_missing_heading_empty_rationale (("nothing relevant here").data) 0
      (("1. Flu (Likelihood: High)").data) none
      ⟨("Flu").data, [], ("High").data⟩ (("1. Flu").data)
      (by decide) (by decide) (Or.inl (by decide))⟩

/-- Claim C8 as amended: for every item whose record is emitted, the
likelihood field is the segment strictly between the end of the first
`"(Likelihood: "` marker and the next occurrence of the marker (or the
end of the line), with all trailing `')'` characters removed and then
trimmed; text after a closing parenthesis is kept, and `')'` characters
ending the label are stripped beyond the matching one. -/
theorem C8_likelihood_segment (rJ : Json) (i : Nat) (d : Str)
    (next? : Option Str) (r : DiagRecord) (s : Str)
    (hok : processOne rJ i d next? = Except.ok r) (hseg : likSeg d = some s) :
    r.likelihood = strip (rstripParen s) := by
  cases next? with
  | none =>
      simp only [processOne, bind_eq_ok, pure_eq_ok] at hok
      obtain ⟨p0, hp0, nm1, hnm1, p1, hp1, rt, hrt, content, hcontent, hpure⟩ := hok
      rw [pyIndex_eq_ok, splitOnSep_likM_get1, hseg] at hp1
      injection hp1 with hp1
      subst hp1
      injection hpure with hpure
      rw [← hpure]
  | some nxt =>
      simp only [processOne, bind_eq_ok, pure_eq_ok] at hok
      obtain ⟨p0, hp0, nm1, hnm1, p1, hp1, nx1, hnx1, rt, hrt, content, hcontent, hpure⟩ := hok
      rw [pyIndex_eq_ok, splitOnSep_likM_get1, hseg] at hp1
      injection hp1 with hp1
      subst hp1
      injection hpure with hpure
      rw [← hpure]

/-- Witness for C8: the amended theorem applied to the concrete line with
a parenthesised label, giving likelihood `"High (uncertain"`. -/
theorem C8_witness :
    processOne (Json.str (("1. Flu Clinical x").data)) 0
      (("1. Flu (Likelihood: High (uncertain))").data) none =
      Except.ok ⟨("Flu").data, ("Clinical x").data, ("High (uncertain").data⟩ ∧
    (⟨("Flu").data, ("Clinical x").data,
      ("High (uncertain").data⟩ : DiagRecord).likelihood =
      strip (rstripParen (("High (uncertain))").data)) :=
  ⟨by decide,
    C8_likelihood_segment (Json.str (("1. Flu Clinical x").data)) 0
      (("1. Flu (Likelihood: High (uncertain))").data) none
      ⟨("Flu").data, ("Clinical x").data, ("High (uncertain").data⟩
      (("High (uncertain))").data) (by decide) (by decide)⟩

/-! ### Shape of every emitted rationale -/

theorem intercalate_nil_eq_flatten :
    ∀ xs : List Str, List.intercalate [] xs = xs.flatten := by
  intro xs
  induction xs with
  | nil => rfl
  | cons a t ih =>
      cases t with
      | nil => simp [List.intercalate, List.intersperse]
      | cons b t2 =>
          simp only [List.intercalate, List.intersperse] at ih ⊢
          simp only [List.flatten_cons, List.nil_append]
          rw [ih]
          simp [List.flatten_cons]

theorem occursAt_singleton_iff {c : Char} {l : Str} {q : Nat} :
    occursAt [c] l q ↔ l[q]? = some c := by
  constructor
  · intro h
    exact occursAt_getElem? h
  · intro h
    have h0 : (l.drop q)[0]? = some c := by
      rw [List.getElem?_drop, Nat.add_zero]
      exact h
    unfold occursAt
    cases hdq : l.drop q with
    | nil =>
        rw [hdq] at h0
        cases h0
    | cons a t =>
        rw [hdq] at h0
        simp only [List.getElem?_cons_zero] at h0
        injection h0 with h0
        subst h0
        rfl

theorem not_mem_flatten_splitOnSep (c : Char) :
    ∀ (n : Nat) (l : Str), l.length ≤ n → c ∉ (splitOnSep [c] l).flatten := by
  intro n
  induction n with
  | zero =>
      intro l hl
      have hln : l = [] := List.length_eq_zero.mp (Nat.le_zero.mp hl)
      subst hln
      have h1 : splitOnSep [c] [] = [[]] :=
        splitOnSep_of_find_none (by simp) rfl
      rw [h1]
      simp
  | succ n ih =>
      intro l hl
      cases hf : find [c] l with
      | none =>
          rw [splitOnSep_of_find_none (by simp) hf]
          simp only [List.flatten_cons, List.flatten_nil, List.append_nil]
          intro hc
          rw [find_eq_none_iff] at hf
          obtain ⟨q, hq⟩ := List.mem_iff_getElem?.mp hc
          exact hf q (occursAt_singleton_iff.mpr hq)
      | some p =>
          rw [splitOnSep_of_find_some (by simp) hf]
          simp only [List.flatten_cons]
          intro hc
          rcases List.mem_append.mp hc with h1 | h2
          · obtain ⟨q, hq⟩ := List.mem_iff_getElem?.mp h1
            rw [List.getElem?_take] at hq
            split at hq
            · exact (find_eq_some_iff.mp hf).2 q (by assumption)
                (occursAt_singleton_iff.mpr hq)
            · cases hq
          · have hb := occursAt_length_le (find_eq_some_iff.mp hf).1 (by simp)
            have hlen : (l.drop (p + ([c] : Str).length)).length ≤ n := by
              simp only [List.length_drop, List.length_cons, List.length_nil] at hb ⊢
              omega
            exact ih _ hlen h2

theorem mem_stripStart {x : Char} {l : Str} (h : x ∈ stripStart l) : x ∈ l :=
  (List.dropWhile_sublist pyIsSpace).mem h

theorem mem_stripEnd {x : Char} {l : Str} (h : x ∈ stripEnd l) : x ∈ l := by
  unfold stripEnd at h
  rw [List.mem_reverse] at h
  have h2 := (List.dropWhile_sublist pyIsSpace).mem h
  rw [List.mem_reverse] at h2
  exact h2

theorem mem_strip {x : Char} {l : Str} (h : x ∈ strip l) : x ∈ l :=
  mem_stripStart (mem_stripEnd h)

theorem star_not_mem_preClean (r : Str) : '*' ∉ preClean r := by
  show '*' ∉ strip (pyReplace (List.intercalate [' ']
    (splitWs (strip (pyReplace (strip (pyReplace r marker1 [])) marker2 [])))) ['*'] [])
  intro h
  have h2 := mem_strip h
  rw [pyReplace, intercalate_nil_eq_flatten] at h2
  exact not_mem_flatten_splitOnSep '*' _ _ (le_refl _) h2

theorem normalize_shape (s : Str) :
    '*' ∉ normalize s ∧
      (normalize s = [] ∨ (normalize s).length = 1 ∨
        (normalize s).take 8 = clinicalS) := by
  have hstar := star_not_mem_preClean s
  unfold normalize clinicalCut
  cases hf : find clinicalS (preClean s) with
  | none =>
      dsimp only
      constructor
      · intro h
        exact hstar ((List.drop_sublist _ _).mem h)
      · rcases Nat.eq_zero_or_pos (preClean s).length with hz | hpos
        · left
          have hpc : preClean s = [] := List.length_eq_zero.mp hz
          rw [hpc]
          rfl
        · right
          left
          rw [List.length_drop]
          omega
  | some k =>
      dsimp only
      have hocc := (find_eq_some_iff.mp hf).1
      constructor
      · intro h
        exact hstar ((List.drop_sublist _ _).mem h)
      · right
        right
        exact hocc

theorem processOne_rationale {rJ : Json} {i : Nat} {d : Str} {next? : Option Str}
    {r : DiagRecord} (hok : processOne rJ i d next? = Except.ok r) :
    ∃ c, r.rationale = normalize c := by
  cases next? with
  | none =>
      simp only [processOne, bind_eq_ok, pure_eq_ok] at hok
      obtain ⟨p0, hp0, nm1, hnm1, p1, hp1, rt, hrt, content, hcontent, hpure⟩ := hok
      injection hpure with hpure
      exact ⟨content, by rw [← hpure]⟩
  | some nxt =>
      simp only [processOne, bind_eq_ok, pure_eq_ok] at hok
      obtain ⟨p0, hp0, nm1, hnm1, p1, hp1, nx1, hnx1, rt, hrt, content, hcontent, hpure⟩ := hok
      injection hpure with hpure
      exact ⟨content, by rw [← hpure]⟩

theorem loop_rationale {rJ : Json} :
    ∀ (items : List Str) (i : Nat) (l : List DiagRecord),
      loop rJ i items = Except.ok l →
      ∀ r ∈ l, ∃ c, r.rationale = normalize c := by
  intro items
  induction items with
  | nil =>
      intro i l h r hr
      simp only [loop] at h
      injection h with h
      rw [← h] at hr
      cases hr
  | cons d rest ih =>
      intro i l h r hr
      simp only [loop] at h
      rw [bind_eq_ok] at h
      obtain ⟨r0, hr0, h⟩ := h
      rw [bind_eq_ok] at h
      obtain ⟨rs, hrs, h⟩ := h
      injection h with h
      rw [← h] at hr
      rcases List.mem_cons.mp hr with rfl | hmem
      · exact processOne_rationale hr0
      · exact ih (i + 1) rs hrs r hmem

/-- Claim C10 as amended: every emitted rationale contains no `'*'` and
is either empty, a single character, or begins with `"Clinical"`; the
claim's further condition that it contains no whitespace run longer than
one space fails, since removing `"*"` after whitespace collapsing can
leave a double space. -/
theorem C10_rationale_shape (j : Json) (r : DiagRecord) (hr : r ∈ rr j) :
    '*' ∉ r.rationale ∧
      (r.rationale = [] ∨ r.rationale.length = 1 ∨
        r.rationale.take 8 = clinicalS) := by
  have hrr := hr
  unfold rr at hrr
  cases hc : rrCore j with
  | error e =>
      rw [hc] at hrr
      have hempty : r ∈ ([] : List DiagRecord) := hrr
      cases hempty
  | ok l =>
      rw [hc] at hrr
      have hrl : r ∈ l := hrr
      simp only [rrCore, bind_eq_ok] at hc
      obtain ⟨d1, hd1, o1, ho1, dJ, hdJ, d2, hd2, o2, ho2, rJ, hrJ, dt, hdt, hloop⟩ := hc
      obtain ⟨c, hcr⟩ := loop_rationale (itemsOf dt) 0 l hloop r hrl
      rw [hcr]
      exact normalize_shape c

/-- Witness for C10: the amended shape applied to the record produced
from the rationale span `"fever and cough"`, whose rationale is the
single character `"h"`. -/
theorem C10_witness :
    '*' ∉ (("h").data : Str) ∧
      ((("h").data : Str) = [] ∨ (("h").data : Str).length = 1 ∨
        (("h").data : Str).take 8 = clinicalS) :=
  C10_rationale_shape
    (mkInput ("1. Flu (Likelihood: High)").data ("1. Flu fever and cough").data)
    ⟨("Flu").data, ("h").data, ("High").data⟩ (by decide)

/-! ### The whitespace-collapsing stage on already-normalized text -/

theorem dropWhile_head_false {p : Char → Bool} :
    ∀ {l : Str} {c : Char} {rest : Str}, l.dropWhile p = c :: rest → p c = false := by
  intro l
  induction l with
  | nil =>
      intro c rest h
      cases h
  | cons a t ih =>
      intro c rest h
      rw [List.dropWhile_cons] at h
      split at h
      · exact ih h
      · rename_i hpa
        injection h with h1 h2
        subst h1
        simpa using hpa

theorem splitWsFuel_congr :
    ∀ f₁ f₂ l, l.length < f₁ → l.length < f₂ →
      splitWsFuel f₁ l = splitWsFuel f₂ l := by
  intro f₁
  induction f₁ with
  | zero => intro f₂ l h1 h2; omega
  | succ f ih =>
      intro f₂ l h1 h2
      cases f₂ with
      | zero => omega
      | succ f₂' =>
          simp only [splitWsFuel]
          cases hd : l.dropWhile pyIsSpace with
          | nil => rfl
          | cons c rest =>
              dsimp only
              have hc : pyIsSpace c = false := dropWhile_head_false hd
              have hsub := (List.dropWhile_sublist (l := l) pyIsSpace).length_le
              rw [hd] at hsub
              simp only [List.length_cons] at hsub
              have hdrop : ((c :: rest).dropWhile (fun d => !pyIsSpace d)).length ≤ rest.length := by
                rw [List.dropWhile_cons, if_pos (by simp [hc])]
                exact (List.dropWhile_sublist _).length_le
              congr 1
              exact ih f₂' _ (by omega) (by omega)

theorem splitWs_unfold (l : Str) :
    splitWs l =
      match l.dropWhile pyIsSpace with
      | [] => []
      | c :: rest =>
          ((c :: rest).takeWhile (fun d => !pyIsSpace d)) ::
            splitWsFuel l.length ((c :: rest).dropWhile (fun d => !pyIsSpace d)) := rfl

theorem splitWs_eq (l : Str) :
    splitWs l =
      match l.dropWhile pyIsSpace with
      | [] => []
      | c :: rest =>
          ((c :: rest).takeWhile (fun d => !pyIsSpace d)) ::
            splitWs ((c :: rest).dropWhile (fun d => !pyIsSpace d)) := by
  rw [splitWs_unfold]
  cases hd : l.dropWhile pyIsSpace with
  | nil => rfl
  | cons c rest =>
      dsimp only
      have hc : pyIsSpace c = false := dropWhile_head_false hd
      have hsub := (List.dropWhile_sublist (l := l) pyIsSpace).length_le
      rw [hd] at hsub
      simp only [List.length_cons] at hsub
      have hdrop : ((c :: rest).dropWhile (fun d => !pyIsSpace d)).length ≤ rest.length := by
        rw [List.dropWhile_cons, if_pos (by simp [hc])]
        exact (List.dropWhile_sublist _).length_le
      congr 1
      exact splitWsFuel_congr l.length
        (((c :: rest).dropWhile (fun d => !pyIsSpace d)).length + 1) _
        (by omega) (by omega)

theorem splitWs_cons_nonspace {c : Char} {t : Str} (hc : pyIsSpace c = false) :
    splitWs (c :: t) =
      ((c :: t).takeWhile (fun d => !pyIsSpace d)) ::
        splitWs ((c :: t).dropWhile (fun d => !pyIsSpace d)) := by
  rw [splitWs_eq]
  rw [List.dropWhile_cons, if_neg (by simp [hc])]

theorem splitWs_cons_space (t : Str) : splitWs (' ' :: t) = splitWs t := by
  rw [splitWs_eq (' ' :: t), splitWs_eq t]
  rw [List.dropWhile_cons, if_pos (by decide)]

theorem noWsRun_cons {a : Char} {t : Str} (h : noWsRun (a :: t) = true) :
    noWsRun t = true := by
  cases t with
  | nil => rfl
  | cons b t2 =>
      simp only [noWsRun, Bool.and_eq_true] at h
      exact h.2

theorem noWsRun_suffix : ∀ (x y : Str), noWsRun (x ++ y) = true → noWsRun y = true := by
  intro x
  induction x with
  | nil => intro y h; exact h
  | cons a x2 ih =>
      intro y h
      exact ih y (noWsRun_cons h)

theorem noWsRun_pair {a b : Char} {t : Str} (h : noWsRun (a :: b :: t) = true) :
    pyIsSpace a = false ∨ pyIsSpace b = false := by
  simp only [noWsRun, Bool.and_eq_true] at h
  have h1 := h.1
  cases ha : pyIsSpace a with
  | false => exact Or.inl rfl
  | true =>
      cases hb : pyIsSpace b with
      | false => exact Or.inr rfl
      | true =>
          rw [ha, hb] at h1
          exact absurd h1 (by decide)

theorem stripEnd_eq_self_reverse {l : Str} :
    stripEnd l = l ↔ l.reverse.dropWhile pyIsSpace = l.reverse := by
  unfold stripEnd
  constructor
  · intro h
    have h2 := congrArg List.reverse h
    rwa [List.reverse_reverse] at h2
  · intro h
    rw [h, List.reverse_reverse]

theorem stripEnd_suffix {pre t2 : Str} (h : stripEnd (pre ++ t2) = pre ++ t2)
    (hne : t2 ≠ []) : stripEnd t2 = t2 := by
  rw [stripEnd_eq_self_reverse] at h ⊢
  rw [List.reverse_append] at h
  cases hrev : t2.reverse with
  | nil => exact absurd (by simpa using congrArg List.reverse hrev) hne
  | cons e rev2 =>
      rw [hrev] at h
      rw [List.cons_append] at h
      have he2 := List.dropWhile_eq_self_iff.mp h (by simp)
      have he : pyIsSpace e = false := by simpa using he2
      rw [List.dropWhile_cons, if_neg (by simp [he])]

theorem intercalate_cons_ne {sep x : Str} {ws : List Str} (h : ws ≠ []) :
    List.intercalate sep (x :: ws) = x ++ sep ++ List.intercalate sep ws := by
  cases ws with
  | nil => exact absurd rfl h
  | cons b t => simp [List.intercalate, List.intersperse, List.flatten_cons]

theorem stripEnd_length_le (l : Str) : (stripEnd l).length ≤ l.length := by
  unfold stripEnd
  rw [List.length_reverse]
  have h := (List.dropWhile_sublist (l := l.reverse) pyIsSpace).length_le
  rwa [List.length_reverse] at h

theorem joinWs_id :
    ∀ (n : Nat) (s : Str), s.length ≤ n →
      stripStart s = s → stripEnd s = s →
      (∀ c ∈ s, pyIsSpace c = true → c = ' ') → noWsRun s = true →
      List.intercalate [' '] (splitWs s) = s := by
  intro n
  induction n with
  | zero =>
      intro s hl h1 h2 hsp hrun
      have hs : s = [] := List.length_eq_zero.mp (Nat.le_zero.mp hl)
      subst hs
      rfl
  | succ n ih =>
      intro s hl h1 h2 hsp hrun
      cases s with
      | nil => rfl
      | cons c t =>
          have hc : pyIsSpace c = false := head_not_space_of_stripStart h1
          rw [splitWs_cons_nonspace hc]
          cases hr : (c :: t).dropWhile (fun d => !pyIsSpace d) with
          | nil =>
              have h3 : List.intercalate [' ']
                  [(c :: t).takeWhile (fun d => !pyIsSpace d)] =
                  (c :: t).takeWhile (fun d => !pyIsSpace d) := by
                simp [List.intercalate, List.intersperse]
              rw [show splitWs [] = [] from rfl, h3]
              conv_rhs =>
                rw [← List.takeWhile_append_dropWhile (fun d => !pyIsSpace d) (c :: t)]
              rw [hr, List.append_nil]
          | cons b t2 =>
              have hb : pyIsSpace b = true := by
                have hx := dropWhile_head_false hr
                simpa using hx
              have hbmem : b ∈ c :: t := by
                refine (List.dropWhile_sublist (fun d => !pyIsSpace d)).mem ?_
                rw [hr]
                simp
              have hb2 : b = ' ' := hsp b hbmem hb
              subst hb2
              cases t2 with
              | nil =>
                  exfalso
                  have hsplit := List.takeWhile_append_dropWhile
                    (fun d => !pyIsSpace d) (c :: t)
                  rw [hr] at hsplit
                  have h2x := h2
                  rw [← hsplit, stripEnd_append_space] at h2x
                  have hle := stripEnd_length_le
                    ((c :: t).takeWhile (fun d => !pyIsSpace d))
                  rw [h2x] at hle
                  simp only [List.length_append, List.length_cons,
                    List.length_nil] at hle
                  omega
              | cons d t3 =>
                  have hsplit := List.takeWhile_append_dropWhile
                    (fun d2 => !pyIsSpace d2) (c :: t)
                  rw [hr] at hsplit
                  have hrunSuffix : noWsRun (' ' :: d :: t3) = true := by
                    refine noWsRun_suffix ((c :: t).takeWhile (fun d2 => !pyIsSpace d2))
                      (' ' :: d :: t3) ?_
                    rw [hsplit]
                    exact hrun
                  have hd : pyIsSpace d = false := by
                    rcases noWsRun_pair hrunSuffix with hx | hx
                    · exact absurd hx (by decide)
                    · exact hx
                  have hmem_sub : ∀ x ∈ d :: t3, x ∈ c :: t := by
                    intro x hx
                    rw [← hsplit]
                    exact List.mem_append.mpr (Or.inr (by simp [hx]))
                  have hwcons : (c :: t).takeWhile (fun d2 => !pyIsSpace d2) =
                      c :: t.takeWhile (fun d2 => !pyIsSpace d2) := by
                    rw [List.takeWhile_cons, if_pos (by simp [hc])]
                  have hlen : (d :: t3).length ≤ n := by
                    have hll := congrArg List.length hsplit
                    rw [hwcons] at hll
                    simp only [List.length_append, List.length_cons] at hll
                    simp only [List.length_cons] at hl
                    simp only [List.length_cons]
                    omega
                  have hstripStart2 : stripStart (d :: t3) = d :: t3 :=
                    stripStart_cons hd
                  have hassoc : (c :: t) =
                      ((c :: t).takeWhile (fun d2 => !pyIsSpace d2) ++ [' ']) ++
                        (d :: t3) := by
                    conv_lhs => rw [← hsplit]
                    simp
                  have hstripEnd2 : stripEnd (d :: t3) = d :: t3 := by
                    have hpre : stripEnd
                        ((((c :: t).takeWhile (fun d2 => !pyIsSpace d2)) ++ [' ']) ++
                          (d :: t3)) =
                        (((c :: t).takeWhile (fun d2 => !pyIsSpace d2)) ++ [' ']) ++
                          (d :: t3) := by
                      rw [← hassoc]
                      exact h2
                    exact stripEnd_suffix hpre (by simp)
                  have hsp2 : ∀ x ∈ d :: t3, pyIsSpace x = true → x = ' ' :=
                    fun x hx => hsp x (hmem_sub x hx)
                  have hrun2 : noWsRun (d :: t3) = true := noWsRun_cons hrunSuffix
                  have hih := ih (d :: t3) hlen hstripStart2 hstripEnd2 hsp2 hrun2
                  rw [splitWs_cons_space]
                  have hne2 : splitWs (d :: t3) ≠ [] := by
                    rw [splitWs_cons_nonspace hd]
                    simp
                  rw [intercalate_cons_ne hne2, hih]
                  conv_rhs => rw [← hsplit]
                  simp

theorem find_eq_none_of_head_notMem2 {sub l : Str} {c : Char}
    (hhead : sub.head? = some c) (hc : c ∉ l) : find sub l = none := by
  cases sub with
  | nil => cases hhead
  | cons a s =>
      injection hhead with hhead
      subst hhead
      exact find_eq_none_of_notMem hc

theorem pyReplace_id {l old new : Str} (hs : old ≠ []) (hf : find old l = none) :
    pyReplace l old new = l := by
  unfold pyReplace
  rw [splitOnSep_of_find_none hs hf]
  simp [List.intercalate, List.intersperse]

/-- Claim C7: the Rationale Normalizer is idempotent on already-normalized
strings: a string with no `'*'`, whitespace only as single plain spaces,
no leading or trailing whitespace, and starting with `"Clinical"` is
returned unchanged by the full normalization sequence. -/
theorem C7_normalize_idempotent (s : Str) (h : Normalized s) :
    normalize s = s := by
  obtain ⟨hstar, hsp, hrun, h1, h2, hcl⟩ := h
  have hstrip : strip s = s := strip_eq_self h1 h2
  have hm1 : pyReplace s marker1 [] = s :=
    pyReplace_id (by decide) (find_eq_none_of_head_notMem2 rfl hstar)
  have hm2 : pyReplace s marker2 [] = s :=
    pyReplace_id (by decide) (find_eq_none_of_head_notMem2 rfl hstar)
  have hm3 : pyReplace s ['*'] [] = s :=
    pyReplace_id (by decide) (find_eq_none_of_notMem hstar)
  have hjoin : List.intercalate [' '] (splitWs s) = s :=
    joinWs_id s.length s (le_refl _) h1 h2 hsp hrun
  have hpc : preClean s = s := by
    show strip (pyReplace (List.intercalate [' ']
      (splitWs (strip (pyReplace (strip (pyReplace s marker1 [])) marker2 [])))) ['*'] []) = s
    rw [hm1, hstrip, hm2, hstrip, hjoin, hm3, hstrip]
  have hfind0 : find clinicalS s = some 0 := by
    refine find_eq_some_iff.mpr ⟨?_, by omega⟩
    unfold occursAt
    rw [List.drop_zero]
    exact hcl
  unfold normalize clinicalCut
  rw [hpc, hfind0]
  dsimp only
  rw [List.drop_zero]

/-- Witness for C7: the idempotence theorem applied to the concrete
already-normalized rationale `"Clinical signs."`. -/
theorem C7_witness :
    Normalized (("Clinical signs.").data) ∧
      normalize (("Clinical signs.").data) = ("Clinical signs.").data :=
  ⟨by decide, C7_normalize_idempotent (("Clinical signs.").data) (by decide)⟩

/-! ### Decomposing a well-formed diagnosis line -/

theorem not_mem_numStr {x : Char} (n : Nat) (hx : x.isDigit = false) :
    x ∉ numStr n := by
  intro h
  have hd := numStr_digits x h
  rw [hx] at hd
  cases hd

theorem find_ordSep_numStr (n : Nat) (rest : Str) :
    find ordSep (numStr n ++ ordSep ++ rest) = some (numStr n).length := by
  apply find_sandwich
  intro q hq
  rw [List.append_assoc]
  exact not_occursAt_append_left hq (not_mem_numStr n (by decide))

theorem split1_numStr (n : Nat) (rest : Str) :
    split1 ordSep (numStr n ++ ordSep ++ rest) = [numStr n, rest] := by
  unfold split1
  rw [find_ordSep_numStr]
  dsimp only
  congr 1
  · rw [List.append_assoc]
    exact List.take_left _ _
  congr 1
  refine List.drop_left' ?_
  simp

theorem find_likM_pre {pre post : Str} (hpre : '(' ∉ pre) :
    find likM (pre ++ likM ++ post) = some pre.length := by
  apply find_sandwich
  intro q hq
  rw [List.append_assoc]
  exact not_occursAt_append_left hq hpre

theorem find_likM2_pre {pre post : Str} (hpre : '(' ∉ pre) :
    find likM2 (pre ++ likM2 ++ post) = some pre.length := by
  apply find_sandwich
  intro q hq
  rw [List.append_assoc]
  exact not_occursAt_append_left hq hpre

theorem splitOnSep_likM_pre {pre post : Str} (hpre : '(' ∉ pre)
    (hpost : '(' ∉ post) :
    splitOnSep likM (pre ++ likM ++ post) = [pre, post] := by
  rw [splitOnSep_of_find_some (by decide) (find_likM_pre hpre)]
  congr 1
  · rw [List.append_assoc]
    exact List.take_left _ _
  have hdrop : (pre ++ likM ++ post).drop (pre.length + likM.length) = post := by
    refine List.drop_left' ?_
    simp
  rw [hdrop]
  exact splitOnSep_of_find_none (by decide) (find_eq_none_of_notMem hpost)

theorem mkLine_eq_parts (n : Nat) (nm lb : Str) :
    mkLine n nm lb =
      (numStr n ++ ordSep ++ (nm ++ [' '])) ++ likM ++ (lb ++ [')']) := by
  simp [mkLine, List.append_assoc]

theorem lparen_not_mem_pre {n : Nat} {nm : Str} (hnm : '(' ∉ nm) :
    '(' ∉ numStr n ++ ordSep ++ (nm ++ [' ']) := by
  intro h
  simp only [List.mem_append] at h
  rcases h with (h | h) | (h | h)
  · exact not_mem_numStr n (by decide) h
  · exact absurd h (by decide)
  · exact hnm h
  · exact absurd h (by decide)

theorem splitOnSep_mkLine {n : Nat} {nm lb : Str} (hnm : '(' ∉ nm)
    (hlb : '(' ∉ lb) :
    splitOnSep likM (mkLine n nm lb) =
      [numStr n ++ ordSep ++ (nm ++ [' ']), lb ++ [')']] := by
  rw [mkLine_eq_parts]
  refine splitOnSep_likM_pre (lparen_not_mem_pre hnm) ?_
  intro h
  simp only [List.mem_append] at h
  rcases h with h | h
  · exact hlb h
  · exact absurd h (by decide)

theorem pyIndex_cons_one {α : Type} {a b : α} {t : List α} :
    pyIndex (a :: b :: t) 1 = Except.ok b := rfl

theorem mkLine_eq_numRest (n : Nat) (nm lb : Str) :
    mkLine n nm lb =
      numStr n ++ ordSep ++
        ((nm ++ [' ']) ++ likM2 ++ ([' '] ++ (lb ++ [')']))) := by
  have hlik : likM = likM2 ++ [' '] := rfl
  simp [mkLine, hlik, List.append_assoc]

theorem headD_splitOnSep_likM2 {nm2 : Str} (post2 : Str) (hnm2 : '(' ∉ nm2) :
    (splitOnSep likM2 ((nm2 ++ [' ']) ++ likM2 ++ post2)).headD [] =
      nm2 ++ [' '] := by
  have hpre : '(' ∉ nm2 ++ [' '] := by
    intro h
    rcases List.mem_append.mp h with h | h
    · exact hnm2 h
    · exact absurd h (by decide)
  have hf := @find_likM2_pre (nm2 ++ [' ']) post2 hpre
  rw [splitOnSep_of_find_some (by decide) hf]
  dsimp only [List.headD]
  rw [List.append_assoc]
  exact List.take_left _ _

theorem processOne_mkLine {rt : Str} {i : Nat} {nm lb : Str}
    (hnm : WfName nm) (hlb : WfLabel lb) (next? : Option Str)
    (hnext : next? = none ∨
      ∃ nm2 lb2, '(' ∉ nm2 ∧ next? = some (mkLine (i + 2) nm2 lb2)) :
    ∃ rat, processOne (Json.str rt) i (mkLine (i + 1) nm lb) next? =
      Except.ok ⟨nm, rat, lb⟩ := by
  obtain ⟨hnm1, hnm2, hnm3, hnm4, hnm5⟩ := hnm
  obtain ⟨hlb1, hlb2, hlb3, hlb4, hlb5⟩ := hlb
  have hparts := splitOnSep_mkLine (n := i + 1) hnm3 hlb3
  have hsplit1 := split1_numStr (i + 1) (nm ++ [' '])
  have hname : strip (nm ++ [' ']) = nm := strip_append_space hnm1 hnm2
  have hlik : strip (rstripParen (lb ++ [')'])) = lb := by
    rw [rstripParen_append hlb4, strip_eq_self hlb1 hlb2]
  rcases hnext with rfl | ⟨nm2, lb2, hn2, rfl⟩
  · apply Exists.intro
    simp only [processOne, hparts, pyIndex_cons_zero, ok_bind, hsplit1,
      pyIndex_cons_one, jStr, hname, hlik, pure_eq_ok]
    rfl
  · apply Exists.intro
    have hsplit1nxt : split1 ordSep (mkLine (i + 2) nm2 lb2) =
        [numStr (i + 2), (nm2 ++ [' ']) ++ likM2 ++ ([' '] ++ (lb2 ++ [')']))] := by
      rw [mkLine_eq_numRest]
      exact split1_numStr _ _
    have hhead := headD_splitOnSep_likM2 ([' '] ++ (lb2 ++ [')'])) hn2
    simp only [processOne, hparts, pyIndex_cons_zero, ok_bind, hsplit1,
      pyIndex_cons_one, hsplit1nxt, hhead, jStr, hname, hlik, pure_eq_ok]
    rfl

theorem loop_numberedLines (rt : Str) :
    ∀ (ps : List (Str × Str)) (i : Nat),
      (∀ p ∈ ps, WfName p.1 ∧ WfLabel p.2) →
      ∃ l, loop (Json.str rt) i (numberedLines (i + 1) ps) = Except.ok l ∧
        l.map DiagRecord.diagnosis = ps.map Prod.fst ∧
        l.map DiagRecord.likelihood = ps.map Prod.snd := by
  intro ps
  induction ps with
  | nil =>
      intro i h
      exact ⟨[], rfl, rfl, rfl⟩
  | cons p rest ih =>
      intro i h
      obtain ⟨nm, lb⟩ := p
      have hp := h (nm, lb) (by simp)
      obtain ⟨l, hl, hdg, hlk⟩ := ih (i + 1) (fun q hq => h q (by simp [hq]))
      have hnext : (numberedLines (i + 2) rest).head? = none ∨
          ∃ nm2 lb2, '(' ∉ nm2 ∧
            (numberedLines (i + 2) rest).head? = some (mkLine (i + 2) nm2 lb2) := by
        cases rest with
        | nil => exact Or.inl rfl
        | cons p2 r2 =>
            obtain ⟨nm2, lb2⟩ := p2
            have hp2 := h (nm2, lb2) (by simp)
            exact Or.inr ⟨nm2, lb2, hp2.1.2.2.1, rfl⟩
      obtain ⟨rat, hrat⟩ := processOne_mkLine hp.1 hp.2 _ hnext
      refine ⟨⟨nm, rat, lb⟩ :: l, ?_, ?_, ?_⟩
      · simp only [numberedLines, loop]
        rw [hrat, ok_bind]
        have hl2 : loop (Json.str rt) (i + 1) (numberedLines (i + 2) rest) =
            Except.ok l := hl
        rw [hl2, ok_bind]
      · simp [hdg]
      · simp [hlk]

theorem mem_numberedLines :
    ∀ (ps : List (Str × Str)) (k : Nat) (line : Str), line ∈ numberedLines k ps →
      ∃ n nm lb, (nm, lb) ∈ ps ∧ line = mkLine n nm lb := by
  intro ps
  induction ps with
  | nil =>
      intro k line h
      cases h
  | cons p rest ih =>
      intro k line h
      obtain ⟨nm, lb⟩ := p
      rcases List.mem_cons.mp h with rfl | hmem
      · exact ⟨k, nm, lb, by simp, rfl⟩
      · obtain ⟨n2, nm2, lb2, hm, heq⟩ := ih (k + 1) line hmem
        exact ⟨n2, nm2, lb2, by simp [hm], heq⟩

theorem nl_not_mem_mkLine {n : Nat} {nm lb : Str} (hnm : '\n' ∉ nm)
    (hlb : '\n' ∉ lb) : '\n' ∉ mkLine n nm lb := by
  intro h
  simp only [mkLine, List.mem_append] at h
  rcases h with ((((((h | h) | h) | h) | h) | h) | h)
  · exact not_mem_numStr n (by decide) h
  · exact absurd h (by decide)
  · exact hnm h
  · exact absurd h (by decide)
  · exact absurd h (by decide)
  · exact hlb h
  · exact absurd h (by decide)

theorem strip_mkLine (n : Nat) (nm lb : Str) :
    strip (mkLine n nm lb) = mkLine n nm lb := by
  apply strip_eq_self
  · cases hns : numStr n with
    | nil => exact absurd hns (numStr_ne_nil n)
    | cons c cs =>
        have hc : pyIsSpace c = false :=
          digit_not_space (numStr_digits c (by rw [hns]; simp))
        unfold mkLine
        rw [hns]
        simp only [List.cons_append]
        exact stripStart_cons hc
  · unfold mkLine
    exact stripEnd_append_last (by decide)

theorem mkLine_ne_nil (n : Nat) (nm lb : Str) : mkLine n nm lb ≠ [] := by
  simp [mkLine]

theorem map_strip_id : ∀ l : List Str, (∀ x ∈ l, strip x = x) → l.map strip = l := by
  intro l
  induction l with
  | nil => intro _; rfl
  | cons a t ih =>
      intro h
      simp only [List.map_cons, h a (by simp),
        ih (fun x hx => h x (by simp [hx]))]

theorem filter_ne_nil_id :
    ∀ l : List Str, (∀ x ∈ l, x ≠ []) → l.filter (fun s => !s.isEmpty) = l := by
  intro l
  induction l with
  | nil => intro _; rfl
  | cons a t ih =>
      intro h
      rw [List.filter_cons]
      rw [if_pos (by simpa using h a (by simp))]
      rw [ih (fun x hx => h x (by simp [hx]))]

theorem splitOnSep_nl_intercalate :
    ∀ lines : List Str, lines ≠ [] → (∀ l ∈ lines, '\n' ∉ l) →
      splitOnSep ['\n'] (List.intercalate ['\n'] lines) = lines := by
  intro lines
  induction lines with
  | nil =>
      intro h
      exact absurd rfl h
  | cons a t ih =>
      intro hne hmem
      cases t with
      | nil =>
          have hf : find ['\n'] a = none :=
            find_eq_none_of_notMem (hmem a (by simp))
          rw [show List.intercalate ['\n'] [a] = a from by
            simp [List.intercalate, List.intersperse]]
          exact splitOnSep_of_find_none (by simp) hf
      | cons b t2 =>
          rw [intercalate_cons_ne (by simp)]
          have hf : find ['\n'] (a ++ ['\n'] ++ List.intercalate ['\n'] (b :: t2)) =
              some a.length := by
            apply find_sandwich
            intro q hq
            rw [List.append_assoc]
            exact not_occursAt_append_left hq (hmem a (by simp))
          rw [splitOnSep_of_find_some (by simp) hf]
          congr 1
          · rw [List.append_assoc]
            exact List.take_left _ _
          have hdrop : (a ++ ['\n'] ++ List.intercalate ['\n'] (b :: t2)).drop
              (a.length + (['\n'] : Str).length) = List.intercalate ['\n'] (b :: t2) := by
            refine List.drop_left' ?_
            simp
          rw [hdrop]
          exact ih (by simp) (fun x hx => hmem x (by simp [hx]))

theorem itemsOf_mkDiagText (ps : List (Str × Str))
    (hwf : ∀ p ∈ ps, WfName p.1 ∧ WfLabel p.2) :
    itemsOf (mkDiagText ps) = numberedLines 1 ps := by
  cases ps with
  | nil => rfl
  | cons p rest =>
      have hlines_ne : numberedLines 1 (p :: rest) ≠ [] := by
        obtain ⟨nm, lb⟩ := p
        simp [numberedLines]
      have hprops : ∀ line ∈ numberedLines 1 (p :: rest),
          '\n' ∉ line ∧ strip line = line ∧ line ≠ [] := by
        intro line hline
        obtain ⟨n, nm, lb, hm, rfl⟩ := mem_numberedLines (p :: rest) 1 line hline
        have hw := hwf (nm, lb) hm
        exact ⟨nl_not_mem_mkLine hw.1.2.2.2.2 hw.2.2.2.2.2, strip_mkLine n nm lb,
          mkLine_ne_nil n nm lb⟩
      unfold itemsOf mkDiagText
      rw [splitOnSep_nl_intercalate _ hlines_ne (fun l hl => (hprops l hl).1)]
      rw [map_strip_id _ (fun l hl => (hprops l hl).2.1)]
      exact filter_ne_nil_id _ (fun l hl => (hprops l hl).2.2)

/-- Claim C1: on well-formed input — every diagnosis line of the shape
`"<n>. <name> (Likelihood: <label>)"` with trimmed, parenthesis-free,
single-line name and label, and every heading `"<n>. <name>"` occurring
exactly once in the rationale text — the parser returns exactly one
record per input line, in the same order, with the record's diagnosis
equal to the line's name and its likelihood equal to the line's label. -/
theorem C1_wellformed_parse (ps : List (Str × Str)) (rt : Str)
    (hwf : ∀ p ∈ ps, WfName p.1 ∧ WfLabel p.2)
    (honce : ∀ k, ∀ hk : k < ps.length,
      countOcc (numStr (k + 1) ++ ordSep ++ (ps.get ⟨k, hk⟩).1) rt = 1) :
    (rr (mkInput (mkDiagText ps) rt)).map DiagRecord.diagnosis =
        ps.map Prod.fst ∧
      (rr (mkInput (mkDiagText ps) rt)).map DiagRecord.likelihood =
        ps.map Prod.snd ∧
      (rr (mkInput (mkDiagText ps) rt)).length = ps.length := by
  obtain ⟨l, hl, hdg, hlk⟩ := loop_numberedLines rt ps 0 hwf
  have hcore : rrCore (mkInput (mkDiagText ps) rt) =
      loop (Json.str rt) 0 (itemsOf (mkDiagText ps)) := rfl
  have hitems := itemsOf_mkDiagText ps hwf
  have hrr : rr (mkInput (mkDiagText ps) rt) = l := by
    unfold rr
    rw [hcore, hitems, hl]
  refine ⟨?_, ?_, ?_⟩
  · rw [hrr]
    exact hdg
  · rw [hrr]
    exact hlk
  · rw [hrr]
    have hlen := congrArg List.length hdg
    simpa using hlen

set_option maxRecDepth 40000 in
/-- Witness for C1: the well-formed-input theorem applied to the two
concrete diagnoses of the spec's test scenario. -/
theorem C1_witness :
    (rr (mkInput
      (mkDiagText [(("Influenza").data, ("High").data),
        (("Common Cold").data, ("Low").data)])
      (("1. Influenza * **Rationale:** Clinical signs include fever and cough. 2. Common Cold Clinical signs are mild congestion.").data))).map
        DiagRecord.diagnosis = [("Influenza").data, ("Common Cold").data] ∧
    (rr (mkInput
      (mkDiagText [(("Influenza").data, ("High").data),
        (("Common Cold").data, ("Low").data)])
      (("1. Influenza * **Rationale:** Clinical signs include fever and cough. 2. Common Cold Clinical signs are mild congestion.").data))).map
        DiagRecord.likelihood = [("High").data, ("Low").data] ∧
    (rr (mkInput
      (mkDiagText [(("Influenza").data, ("High").data),
        (("Common Cold").data, ("Low").data)])
      (("1. Influenza * **Rationale:** Clinical signs include fever and cough. 2. Common Cold Clinical signs are mild congestion.").data))).length = 2 :=
  C1_wellformed_parse
    [(("Influenza").data, ("High").data), (("Common Cold").data, ("Low").data)]
    (("1. Influenza * **Rationale:** Clinical signs include fever and cough. 2. Common Cold Clinical signs are mild congestion.").data)
    (by decide) (by decide)

end IH
